import Mathlib

/-!
Verification of the core of q2galaxy (src/q2galaxy/core/util.py):
the galaxy escape codec (galaxy_esc / galaxy_unesc), the canonical
ordering engine (OrderedTool) and the document assembler (write_tool).

Python strings are modelled as lists of characters (type Str below);
Python scalar values handled by the codec are modelled by the tagged
type PyVal, where the three sentinels None / True / False are separate
constructors, so that the Python identity checks become structural
equality. Raised exceptions are modelled with Except / Option.
-/

namespace Q2Galaxy

/-- A Python string, modelled as its list of characters. -/
abbrev Str := List Char

/-- Fuel-driven worker for pyReplace. The fuel is always at least the
length of the string, so the fuel-exhaustion branch is never taken. -/
def replaceGo (pat repl : Str) : Nat → Str → Str
  | _, [] => []
  | 0, s => s
  | fuel + 1, c :: rest =>
    if pat ≠ [] ∧ pat <+: (c :: rest) then
      repl ++ replaceGo pat repl fuel (rest.drop (pat.length - 1))
    else
      c :: replaceGo pat repl fuel rest

/-- Python str.replace(pat, repl) for a non-empty pattern: scan left to
right, replacing each leftmost non-overlapping occurrence of pat with
repl; the replacement text is not rescanned. (For an empty pattern
Python interleaves repl everywhere; the codec never uses one, and this
model returns the string unchanged in that case.) -/
def pyReplace (pat repl s : Str) : Str := replaceGo pat repl s.length s

/-- The ordered escape table _escaped of util.py: galaxy mapped_chars. -/
def _escaped : List (Char × Str) :=
  [('[', ("__ob__").data),
   (']', ("__cb__").data),
   ('>', ("__gt__").data),
   ('<', ("__lt__").data),
   ('\'', ("__sq__").data),
   ('"', ("__dq__").data),
   ('\x7b', ("__oc__").data),
   ('\x7d', ("__cc__").data),
   ('@', ("__at__").data),
   ('\n', ("__cn__").data),
   ('\r', ("__cr__").data),
   ('\t', ("__tc__").data),
   ('#', ("__pd__").data),
   (',', ("__comma__").data)]

/-- Sentinel token for the Python value None. -/
def noneTok : Str := ("__q2galaxy__::literal::None").data

/-- Sentinel token for the Python value True. -/
def trueTok : Str := ("__q2galaxy__::literal::True").data

/-- Sentinel token for the Python value False. -/
def falseTok : Str := ("__q2galaxy__::literal::False").data

/-- The Python values the codec can receive. The sentinels None, True
and False are distinct constructors, so Python identity (the `is`
checks in galaxy_esc) is structural equality here; in particular the
integers 0 and 1 are not identical to False and True. -/
inductive PyVal where
  | pyNone : PyVal
  | pyBool : Bool → PyVal
  | pyInt : Int → PyVal
  | pyStr : Str → PyVal
deriving DecidableEq

/-- The sentinel table _mapped of util.py. -/
def _mapped : List (PyVal × Str) :=
  [(.pyNone, noneTok),
   (.pyBool true, trueTok),
   (.pyBool false, falseTok)]

/-- The escaping loop of galaxy_esc: for char, esc in tbl:
s = s.replace(char, esc). -/
def escWith (tbl : List (Char × Str)) (s : Str) : Str :=
  tbl.foldl (fun acc p => pyReplace [p.1] p.2 acc) s

/-- The unescaping loop of galaxy_unesc: for char, esc in tbl:
s = s.replace(esc, char). -/
def unescWith (tbl : List (Char × Str)) (s : Str) : Str :=
  tbl.foldl (fun acc p => pyReplace p.2 [p.1] acc) s

/-- galaxy_esc of util.py. A string value is run through the escape
table; otherwise the first sentinel identical to the value gives its
token; any other value raises NotImplementedError (here: .error ()). -/
def galaxy_esc (s : PyVal) : Except Unit Str :=
  match s with
  | .pyStr str => .ok (escWith _escaped str)
  | other =>
    match _mapped.find? (fun p => p.1 == other) with
    | some p => .ok p.2
    | none => .error ()

/-- galaxy_unesc of util.py: if the whole input equals a sentinel token
the sentinel value is returned, otherwise every escape token is
substituted back, in table order. -/
def galaxy_unesc (s : Str) : PyVal :=
  match _mapped.find? (fun p => p.2 == s) with
  | some p => p.1
  | none => .pyStr (unescWith _escaped s)

/-- The escape tokens, in table order. -/
def toks : List Str := _escaped.map (fun p => p.2)

/-- Every character appearing in some escape token. -/
def tokAlpha : Str := toks.flatten

/-- The three sentinel tokens. -/
def sentinelToks : List Str := [noneTok, trueTok, falseTok]

/-- The image of one character under the full escaping loop. -/
def blockOf (c : Char) : Str := escWith _escaped [c]

/-- A block of an escaped string: either an escape token, or a single
character that occurs in no escape token. -/
def GoodBlock (b : Str) : Prop := b ∈ toks ∨ ∃ c, b = [c] ∧ c ∉ tokAlpha

/-- All blocks of a list are good. -/
def GoodBlocks (L : List Str) : Prop := ∀ b ∈ L, GoodBlock b

/-- The effect of the unescaping loop on one block. -/
def unescBlock (tbl : List (Char × Str)) (b : Str) : Str :=
  tbl.foldl (fun acc p => if acc = p.2 then [p.1] else acc) b

/-- An lxml element: tag, ordered attribute mapping (names are unique
per element in XML), optional text, ordered children. -/
structure Elem where
  tag : Str
  attrib : List (Str × Str)
  text : Option Str
  children : List Elem

/-- Python string comparison (code-point lexicographic less-or-equal). -/
def lexLe : Str → Str → Bool
  | [], _ => true
  | _ :: _, [] => false
  | a :: as_, b :: bs => if a = b then lexLe as_ bs else decide (a < b)

namespace OrderedTool

/-- OrderedTool.order of util.py: the root-level tag priority list. -/
def order : List Str :=
  [("description").data, ("macros").data, ("edam_topics").data,
   ("edam_operations").data, ("parallelism").data, ("requirements").data,
   ("code").data, ("stdio").data, ("version_command").data,
   ("command").data, ("environment_variables").data, ("configfiles").data,
   ("inputs").data, ("request_param_translation").data, ("outputs").data,
   ("tests").data, ("help").data, ("citations").data]

/-- OrderedTool.order_attr of util.py: the attribute priority list.
(order_attr_set is the same collection viewed as a set; membership in
the list is used directly here.) -/
def order_attr : List Str :=
  [("name").data, ("argument").data, ("type").data, ("format").data,
   ("min").data, ("truevalue").data, ("max").data, ("falsevalue").data,
   ("value").data, ("checked").data, ("optional").data, ("label").data,
   ("help").data]

/-- Sort key order of order_items.sort(key=lambda x: order_attr.index(x[0])). -/
def attrPrioLe (a b : Str × Str) : Prop :=
  List.indexOf a.1 order_attr ≤ List.indexOf b.1 order_attr

instance : DecidableRel attrPrioLe := fun _ _ => Nat.decLe _ _

instance : IsTotal (Str × Str) attrPrioLe := ⟨fun _ _ => Nat.le_total _ _⟩

instance : IsTrans (Str × Str) attrPrioLe := ⟨fun _ _ _ => Nat.le_trans⟩

/-- Sort key order of remaining_items.sort(key=lambda x: x[0]). -/
def attrNameLe (a b : Str × Str) : Prop := lexLe a.1 b.1 = true

instance : DecidableRel attrNameLe := fun _ _ => instDecidableEqBool _ _

instance : IsTotal (Str × Str) attrNameLe := ⟨fun a b => by
  show lexLe a.1 b.1 = true ∨ lexLe b.1 a.1 = true
  generalize a.1 = x
  generalize b.1 = y
  induction x generalizing y with
  | nil => left; rfl
  | cons c cs ih =>
    cases y with
    | nil => right; rfl
    | cons d ds =>
      by_cases hcd : c = d
      · subst hcd
        rcases ih ds with h | h
        · left; simpa [lexLe] using h
        · right; simpa [lexLe] using h
      · rcases lt_or_gt_of_ne hcd with h | h
        · left; simp [lexLe, hcd, h]
        · right; simp [lexLe, Ne.symm hcd, h]⟩

instance : IsTrans (Str × Str) attrNameLe := ⟨fun a b c hab hbc => by
  show lexLe a.1 c.1 = true
  have key : ∀ x y z : Str, lexLe x y = true → lexLe y z = true →
      lexLe x z = true := by
    intro x
    induction x with
    | nil => intro y z _ _; rfl
    | cons cx xs ih =>
      intro y z hab2 hbc2
      cases y with
      | nil => exact absurd hab2 (by simp [lexLe])
      | cons cy ys =>
        cases z with
        | nil => exact absurd hbc2 (by simp [lexLe])
        | cons cz zs =>
          by_cases h1 : cx = cy
          · subst h1
            by_cases h2 : cx = cz
            · subst h2
              simp only [lexLe, if_pos rfl] at hab2 hbc2 ⊢
              exact ih ys zs hab2 hbc2
            · simp only [lexLe, if_pos rfl] at hab2
              simp only [lexLe, if_neg h2] at hbc2 ⊢
              exact hbc2
          · simp only [lexLe, if_neg h1, decide_eq_true_eq] at hab2
            by_cases h2 : cy = cz
            · subst h2
              simp only [lexLe, if_neg h1, decide_eq_true_eq]
              exact hab2
            · simp only [lexLe, if_neg h2, decide_eq_true_eq] at hbc2
              have h3 : cx < cz := lt_trans hab2 hbc2
              simp only [lexLe, if_neg (ne_of_lt h3), decide_eq_true_eq]
              exact h3
  exact key a.1 b.1 c.1 hab hbc⟩

/-- OrderedTool.__init__ of util.py: split the items on membership of
the name in order_attr, stably sort the first group by priority index
and the second alphabetically, and concatenate. Python's list.sort is
a stable sort, as is List.insertionSort with these reflexive orders. -/
def orderedAttrs (items : List (Str × Str)) : List (Str × Str) :=
  let order_items := items.filter (fun it => it.1 ∈ order_attr)
  let remaining_items := items.filter (fun it => it.1 ∉ order_attr)
  List.insertionSort attrPrioLe order_items ++
    List.insertionSort attrNameLe remaining_items

/-- Sort key order of sorted(new, key=lambda x: cls.order.index(x.tag)). -/
def tagLe (a b : Elem) : Prop :=
  List.indexOf a.tag order ≤ List.indexOf b.tag order

instance : DecidableRel tagLe := fun _ _ => Nat.decLe _ _

instance : IsTotal Elem tagLe := ⟨fun _ _ => Nat.le_total _ _⟩

instance : IsTrans Elem tagLe := ⟨fun _ _ _ => Nat.le_trans⟩

mutual
/-- OrderedTool._sorted_attrs of util.py: rebuild the element with
canonically ordered attributes, recursing into all children. -/
def _sorted_attrs : Elem → Elem
  | ⟨t, a, x, cs⟩ => ⟨t, orderedAttrs a, x, sortedAttrsList cs⟩

/-- The children loop of _sorted_attrs (for child in e: new.append ...). -/
def sortedAttrsList : List Elem → List Elem
  | [] => []
  | c :: cs => _sorted_attrs c :: sortedAttrsList cs
end

/-- OrderedTool.sorted of util.py: order all attributes, then stably
sort the root children by tag priority. Python's list.index raises
ValueError for a tag outside the list, aborting sorted; this is
modelled by Option.none. -/
def sorted (e : Elem) : Option Elem :=
  let new := _sorted_attrs e
  if ∀ c ∈ new.children, c.tag ∈ order then
    some ⟨new.tag, new.attrib, new.text, List.insertionSort tagLe new.children⟩
  else
    none

end OrderedTool

mutual
/-- All nodes of a tree: the root and, recursively, the nodes of the
children. -/
def allNodes : Elem → List Elem
  | ⟨t, a, x, cs⟩ => ⟨t, a, x, cs⟩ :: allNodesList cs

/-- Concatenation of allNodes over a list of trees. -/
def allNodesList : List Elem → List Elem
  | [] => []
  | c :: cs => allNodes c ++ allNodesList cs
end

mutual
/-- Erase every attribute list in a tree, keeping tag, text and the
order of children; two trees agree on stripAttrs exactly when they
differ at most in attribute lists. -/
def stripAttrs : Elem → Elem
  | ⟨t, _, x, cs⟩ => ⟨t, [], x, stripAttrsList cs⟩

/-- stripAttrs mapped over a list of trees. -/
def stripAttrsList : List Elem → List Elem
  | [] => []
  | c :: cs => stripAttrs c :: stripAttrsList cs
end

/-- lxml attribute update: replace the value at an existing name in
place, or append the pair at the end. -/
def setPairs : List (Str × Str) → Str → Str → List (Str × Str)
  | [], k, v => [(k, v)]
  | (k0, v0) :: rest, k, v =>
    if k0 = k then (k, v) :: rest else (k0, v0) :: setPairs rest k v

/-- lxml Element.set. -/
def Elem.set (e : Elem) (k v : Str) : Elem :=
  ⟨e.tag, setPairs e.attrib k v, e.text, e.children⟩

/-- The COPYRIGHT comment text of util.py; the year comes from
datetime.now() and is a parameter here. -/
def COPYRIGHT (year : Nat) : Str :=
  ("\nCopyright (c) ").data ++ (toString year).data ++
    (", QIIME 2 development team.\n\nDistributed under the terms of the Modified BSD License. (SPDX: BSD-3-Clause)\n").data

/-- The generated-provenance comment of write_tool; the two version
strings come from the q2galaxy and qiime2 packages and are parameters. -/
def provenance (q2galaxyVersion qiime2Version : Str) : Str :=
  ("\nThis tool was automatically generated by:\n    q2galaxy (version: ").data ++
    q2galaxyVersion ++ (")\nfor:\n    qiime2 (version: ").data ++
    qiime2Version ++ (")\n").data

/-- The document write_tool serializes: the comment blocks placed
before the root element (via addprevious, in call order), and the root. -/
structure ToolDoc where
  comments : List Str
  root : Elem

/-- write_tool of util.py, up to the final byte serialization: sort the
tool canonically, set the profile and license attributes, and attach
the copyright and provenance comments before the root. -/
def write_tool (year : Nat) (q2galaxyVersion qiime2Version : Str)
    (tool : Elem) : Option ToolDoc :=
  (OrderedTool.sorted tool).map fun t =>
    let t2 := (t.set (("profile").data) (("20.09").data)).set
      (("license").data) (("BSD-3-Clause").data)
    { comments := [COPYRIGHT year, provenance q2galaxyVersion qiime2Version],
      root := t2 }

/-- Serialized form of an attribute list. -/
def attrsStr (l : List (Str × Str)) : Str :=
  (l.map (fun p => (" ").data ++ p.1 ++ ("=\"").data ++ p.2 ++ ("\"").data)).flatten

mutual
/-- Text serialization of an element, modelling the element layout of
lxml.etree.tostring: start tag with attributes in mapping order, text,
children in order, end tag (indentation omitted; the claims proved
below do not depend on it). -/
def serializeElem : Elem → Str
  | ⟨t, a, x, cs⟩ =>
    ("<").data ++ t ++ attrsStr a ++ (">").data ++ x.getD [] ++
      serializeList cs ++ ("</").data ++ t ++ (">").data

/-- Serialization of a list of sibling elements. -/
def serializeList : List Elem → Str
  | [] => []
  | c :: cs => serializeElem c ++ serializeList cs
end

/-- The XML declaration emitted by lxml for encoding utf-8. -/
def xmlDeclaration : Str := ("<?xml version='1.0' encoding='utf-8'?>\n").data

/-- Serialized form of a comment block. -/
def commentStr (c : Str) : Str := ("<!--").data ++ c ++ ("-->\n").data

/-- Serialization of the whole document written by write_tool:
declaration, then the comment blocks, then the root element. -/
def serializeDoc (d : ToolDoc) : Str :=
  xmlDeclaration ++ (d.comments.map commentStr).flatten ++ serializeElem d.root

/-- Decidable equality of Except results, for evaluating the codec on
concrete inputs. -/
instance instDecEqExcept {e a : Type _} [DecidableEq e] [DecidableEq a] :
    DecidableEq (Except e a) := fun x y =>
  match x, y with
  | .ok v, .ok w => decidable_of_iff (v = w) (by simp)
  | .ok _, .error _ => isFalse (by simp)
  | .error _, .ok _ => isFalse (by simp)
  | .error v, .error w => decidable_of_iff (v = w) (by simp)

/-- The attribute-ordering contract in the words of the spec: the
attributes split as a priority group (names in order_attr, ordered by
priority index) followed by a remainder group (names outside
order_attr, ordered alphabetically). -/
def specAttrOrdered (attrs : List (Str × Str)) : Prop :=
  ∃ p r, attrs = p ++ r ∧
    (∀ a ∈ p, a.1 ∈ OrderedTool.order_attr) ∧
    (∀ a ∈ r, a.1 ∉ OrderedTool.order_attr) ∧
    p.Pairwise OrderedTool.attrPrioLe ∧
    r.Pairwise OrderedTool.attrNameLe

-- ## Basic lemmas about pyReplace

theorem replaceGo_nil (pat repl : Str) (f : Nat) : replaceGo pat repl f [] = [] := by
  cases f <;> rfl

theorem replaceGo_fuel (pat repl : Str) :
    ∀ f g s, s.length ≤ f → s.length ≤ g →
      replaceGo pat repl f s = replaceGo pat repl g s := by
  intro f
  induction f with
  | zero =>
    intro g s hf _
    have hs : s = [] := List.eq_nil_of_length_eq_zero (Nat.le_zero.mp hf)
    subst hs
    simp [replaceGo_nil]
  | succ f ih =>
    intro g s hf hg
    match s, g with
    | [], g => simp [replaceGo_nil]
    | c :: rest, 0 => exact absurd hg (by simp)
    | c :: rest, g + 1 =>
      have hrf : rest.length ≤ f := by
        simp only [List.length_cons] at hf; omega
      have hrg : rest.length ≤ g := by
        simp only [List.length_cons] at hg; omega
      have hd : (rest.drop (pat.length - 1)).length ≤ rest.length := by
        simp [List.length_drop]
      simp only [replaceGo]
      split
      · rw [ih _ _ (le_trans hd hrf) (le_trans hd hrg)]
      · rw [ih _ _ hrf hrg]

theorem pyReplace_nil (pat repl : Str) : pyReplace pat repl [] = [] := rfl

theorem pyReplace_cons_pos (pat repl : Str) (c : Char) (rest : Str)
    (h1 : pat ≠ []) (h2 : pat <+: (c :: rest)) :
    pyReplace pat repl (c :: rest) =
      repl ++ pyReplace pat repl (rest.drop (pat.length - 1)) := by
  show replaceGo pat repl (c :: rest).length (c :: rest) = _
  rw [List.length_cons]
  simp only [replaceGo, if_pos (And.intro h1 h2)]
  congr 1
  exact replaceGo_fuel pat repl _ _ _ (by simp [List.length_drop]) le_rfl

theorem pyReplace_cons_neg (pat repl : Str) (c : Char) (rest : Str)
    (h : ¬ (pat ≠ [] ∧ pat <+: (c :: rest))) :
    pyReplace pat repl (c :: rest) = c :: pyReplace pat repl rest := by
  show replaceGo pat repl (c :: rest).length (c :: rest) = _
  rw [List.length_cons]
  simp only [replaceGo, if_neg h]
  rfl

theorem pyReplace_single (a : Char) (repl : Str) :
    ∀ s : Str, pyReplace [a] repl s =
      (s.map (fun c => if c = a then repl else [c])).flatten := by
  intro s
  induction s with
  | nil => rfl
  | cons c rest ih =>
    by_cases h : c = a
    · subst h
      rw [pyReplace_cons_pos _ _ _ _ (by simp)
        (List.cons_prefix_cons.mpr ⟨rfl, List.nil_prefix⟩)]
      simpa using ih
    · rw [pyReplace_cons_neg]
      · simp only [List.map_cons, List.flatten_cons, if_neg h]
        simpa using ih
      · intro hc
        exact h (List.cons_prefix_cons.mp hc.2).1.symm

-- ## The escaping loop as a per-character map

theorem escWith_cons_tbl (p : Char × Str) (tbl : List (Char × Str)) (s : Str) :
    escWith (p :: tbl) s = escWith tbl (pyReplace [p.1] p.2 s) := rfl

theorem escWith_nil : ∀ tbl, escWith tbl [] = [] := by
  intro tbl
  induction tbl with
  | nil => rfl
  | cons p tbl ih =>
    rw [escWith_cons_tbl, pyReplace_nil]
    exact ih

theorem escWith_append : ∀ tbl (x y : Str),
    escWith tbl (x ++ y) = escWith tbl x ++ escWith tbl y := by
  intro tbl
  induction tbl with
  | nil => intro x y; rfl
  | cons p tbl ih =>
    intro x y
    rw [escWith_cons_tbl, pyReplace_single, List.map_append, List.flatten_append,
      ← pyReplace_single, ← pyReplace_single, ih, escWith_cons_tbl, escWith_cons_tbl]

theorem escWith_flatten (tbl : List (Char × Str)) :
    ∀ s : Str, escWith tbl s = (s.map (fun c => escWith tbl [c])).flatten := by
  intro s
  induction s with
  | nil => simp [escWith_nil]
  | cons c rest ih =>
    have h : (c :: rest) = [c] ++ rest := rfl
    rw [h, escWith_append, ih]
    simp

theorem escWith_plain : ∀ tbl (c : Char), c ∉ tbl.map Prod.fst →
    escWith tbl [c] = [c] := by
  intro tbl
  induction tbl with
  | nil => intro c _; rfl
  | cons p tbl ih =>
    intro c hc
    rw [escWith_cons_tbl, pyReplace_single]
    have hne : c ≠ p.1 := by
      intro h; exact hc (by simp [h])
    simp only [List.map_cons, List.map_nil, if_neg hne, List.flatten_cons,
      List.flatten_nil, List.append_nil]
    exact ih c (by intro h; exact hc (by simp [h]))

theorem blockOf_esc : ∀ p ∈ _escaped, blockOf p.1 = p.2 := by decide

theorem blockOf_plain (c : Char) (h : c ∉ _escaped.map Prod.fst) :
    blockOf c = [c] := escWith_plain _ c h

-- ## Finite facts about the escape and sentinel tokens

theorem toks_two_le : ∀ t ∈ toks, 2 ≤ t.length := by decide

theorem mem_tokAlpha_of {t : Str} {c : Char} (ht : t ∈ toks) (hc : c ∈ t) :
    c ∈ tokAlpha := List.mem_flatten.mpr ⟨t, ht, hc⟩

theorem esc_fst_not_alpha : ∀ p ∈ _escaped, p.1 ∉ tokAlpha := by decide

theorem tok_snd_mem_toks : ∀ p ∈ _escaped, p.2 ∈ toks := by
  intro p hp
  exact List.mem_map.mpr ⟨p, hp, rfl⟩

theorem esc_snd_two_le : ∀ p ∈ _escaped, 2 ≤ p.2.length := by decide

theorem tok_no_suffix_match : ∀ t ∈ toks, ∀ u ∈ toks, ∀ i < u.length,
    (0 < i ∨ u ≠ t) → ¬ t <+: u.drop i := by decide

theorem tok_cross_boundary : ∀ t ∈ toks, ∀ u ∈ toks, ∀ v ∈ toks, ∀ i < u.length,
    (0 < i ∨ u ≠ t) → u.drop i <+: t →
      ¬ (t.drop (u.length - i) <+: v ∨ v <+: t.drop (u.length - i)) := by decide

theorem sentinel_take_alpha : ∀ T ∈ sentinelToks, ∀ c ∈ T.take 1, c ∈ tokAlpha := by
  decide

theorem tok_not_prefix_sentinel_tail :
    ∀ T ∈ sentinelToks, ∀ s ∈ T.tails, ∀ t ∈ toks, ¬ t <+: s := by decide

theorem sentinel_ne_nil : ∀ T ∈ sentinelToks, T ≠ [] := by decide

-- ## Prefix bookkeeping

theorem prefix_take_left {t a b : Str} (h : t <+: a ++ b)
    (hle : t.length ≤ a.length) : t <+: a := by
  have h1 : t = List.take t.length (a ++ b) := List.prefix_iff_eq_take.mp h
  rw [List.take_append_eq_append_take, Nat.sub_eq_zero_of_le hle,
    List.take_zero, List.append_nil] at h1
  rw [List.prefix_iff_eq_take]
  exact h1

theorem prefix_split {t a b : Str} (h : t <+: a ++ b)
    (hlt : a.length < t.length) : a <+: t ∧ t.drop a.length <+: b := by
  have htake : t = List.take t.length (a ++ b) := List.prefix_iff_eq_take.mp h
  rw [List.take_append_eq_append_take, List.take_of_length_le (le_of_lt hlt)]
    at htake
  refine ⟨⟨_, htake.symm⟩, ?_⟩
  have hdrop : t.drop a.length = List.take (t.length - a.length) b := by
    conv =>
      lhs
      rw [htake]
    exact List.drop_left a _
  rw [hdrop]
  exact List.take_prefix _ _

theorem single_prefix_head {c : Char} {T : Str} (h : [c] <+: T) :
    c ∈ T.take 1 := by
  cases T with
  | nil =>
    have := h.length_le
    simp at this
  | cons T0 Ts =>
    rw [List.cons_prefix_cons] at h
    simp [h.1]

-- ## Occurrences of a token inside good blocks

theorem good_flatten_overlap {L : List Str} (hL : GoodBlocks L) {r : Str}
    (hrne : r ≠ []) (halpha : ∀ c ∈ r, c ∈ tokAlpha) (hpre : r <+: L.flatten) :
    ∃ v ∈ toks, (r <+: v ∨ v <+: r) := by
  cases L with
  | nil =>
    rw [List.flatten_nil, List.prefix_nil] at hpre
    exact absurd hpre hrne
  | cons b L' =>
    rw [List.flatten_cons] at hpre
    rcases hL b (by simp) with hb | ⟨c, rfl, hca⟩
    · by_cases hlen : r.length ≤ b.length
      · exact ⟨b, hb, Or.inl (prefix_take_left hpre hlen)⟩
      · exact ⟨b, hb, Or.inr (prefix_split hpre (by omega)).1⟩
    · rcases r with _ | ⟨r0, rr⟩
      · exact absurd rfl hrne
      · rw [List.singleton_append, List.cons_prefix_cons] at hpre
        exact absurd (halpha r0 (by simp)) (hpre.1 ▸ hca)

theorem noMatch {t u : Str} (ht : t ∈ toks) (hu : u ∈ toks) {i : Nat}
    (hi : i < u.length) (hit : 0 < i ∨ u ≠ t) {L : List Str}
    (hL : GoodBlocks L) : ¬ t <+: (u.drop i ++ L.flatten) := by
  intro hpre
  by_cases hlen : t.length ≤ (u.drop i).length
  · exact tok_no_suffix_match t ht u hu i hi hit (prefix_take_left hpre hlen)
  · have hsplit := prefix_split hpre (by omega)
    have hrne : t.drop (u.drop i).length ≠ [] := by
      have h1 : (u.drop i).length < t.length := by omega
      have h2 : 0 < (t.drop (u.drop i).length).length := by
        rw [List.length_drop]; omega
      exact List.length_pos.mp h2
    have hralpha : ∀ c ∈ t.drop (u.drop i).length, c ∈ tokAlpha := fun c hc =>
      mem_tokAlpha_of ht (List.mem_of_mem_drop hc)
    rcases good_flatten_overlap hL hrne hralpha hsplit.2 with ⟨v, hv, hcase⟩
    have hlen2 : (u.drop i).length = u.length - i := List.length_drop i u
    rw [hlen2] at hcase
    exact tok_cross_boundary t ht u hu v hv i hi hit hsplit.1 hcase

-- ## pyReplace over a sequence of good blocks

theorem pyReplace_stepOver (pat repl : Str) :
    ∀ (s w : Str), (∀ i < s.length, ¬ pat <+: (s.drop i ++ w)) →
      pyReplace pat repl (s ++ w) = s ++ pyReplace pat repl w := by
  intro s
  induction s with
  | nil => intro w _; rfl
  | cons x s' ih =>
    intro w h
    have h0 : ¬ pat <+: (x :: (s' ++ w)) := by
      have := h 0 (by simp)
      simpa using this
    rw [List.cons_append, pyReplace_cons_neg _ _ _ _ (fun hc => h0 hc.2)]
    congr 1
    refine ih w (fun i hi => ?_)
    have := h (i + 1) (by simp; omega)
    simpa using this

theorem pyReplace_head_match {t : Str} (hne : t ≠ []) (repl w : Str) :
    pyReplace t repl (t ++ w) = repl ++ pyReplace t repl w := by
  cases t with
  | nil => exact absurd rfl hne
  | cons t0 tt =>
    rw [List.cons_append, pyReplace_cons_pos _ _ _ _ hne (by
      rw [← List.cons_append]; exact List.prefix_append _ _)]
    have hdrop : (tt ++ w).drop ((t0 :: tt).length - 1) = w := by
      simp [List.drop_left]
    rw [hdrop]

theorem pyReplace_blocks {t : Str} (ht : t ∈ toks) (repl : Str) :
    ∀ L, GoodBlocks L →
      pyReplace t repl L.flatten =
        (L.map (fun b => if b = t then repl else b)).flatten := by
  intro L
  induction L with
  | nil => intro _; simp [pyReplace_nil]
  | cons b L' ih =>
    intro hL
    have hL' : GoodBlocks L' := fun x hx => hL x (by simp [hx])
    have htne : t ≠ [] := by
      have := toks_two_le t ht
      intro h; rw [h] at this; simp at this
    rcases hL b (by simp) with hb | ⟨c, rfl, hca⟩
    · by_cases hbt : b = t
      · subst hbt
        rw [List.flatten_cons, pyReplace_head_match htne, ih hL',
          List.map_cons, if_pos rfl, List.flatten_cons]
      · rw [List.flatten_cons,
          pyReplace_stepOver t repl b _
            (fun i hi => noMatch ht hb hi (Or.inr hbt) hL'),
          ih hL', List.map_cons, if_neg hbt, List.flatten_cons]
    · have h0 : ¬ t <+: (c :: L'.flatten) := by
        intro hp
        cases t with
        | nil => exact htne rfl
        | cons t0 tt =>
          rw [List.cons_prefix_cons] at hp
          exact hca (hp.1 ▸ mem_tokAlpha_of ht (by simp))
      rw [List.flatten_cons, List.singleton_append,
        pyReplace_cons_neg _ _ _ _ (fun hc2 => h0 hc2.2), ih hL']
      have hne1 : ([c] : Str) ≠ t := by
        intro h
        have := toks_two_le t ht
        rw [← h] at this; simp at this
      rw [List.map_cons, if_neg hne1, List.flatten_cons, List.singleton_append]

-- ## The unescaping loop over good blocks

theorem unescWith_cons_tbl (p : Char × Str) (tbl : List (Char × Str)) (s : Str) :
    unescWith (p :: tbl) s = unescWith tbl (pyReplace p.2 [p.1] s) := rfl

theorem unescBlock_cons_tbl (p : Char × Str) (tbl : List (Char × Str)) (b : Str) :
    unescBlock (p :: tbl) b = unescBlock tbl (if b = p.2 then [p.1] else b) := rfl

theorem unescWith_blocks : ∀ tbl, (∀ p ∈ tbl, p ∈ _escaped) →
    ∀ L, GoodBlocks L →
      unescWith tbl L.flatten = (L.map (unescBlock tbl)).flatten := by
  intro tbl
  induction tbl with
  | nil =>
    intro _ L _
    have h1 : unescWith [] L.flatten = L.flatten := rfl
    have h2 : L.map (unescBlock []) = L := by
      have : unescBlock [] = fun b => b := rfl
      rw [this, List.map_id']
    rw [h1, h2]
  | cons p tbl ih =>
    intro hsub L hL
    rw [unescWith_cons_tbl,
      pyReplace_blocks (tok_snd_mem_toks p (hsub p (by simp))) _ L hL]
    have hgood : GoodBlocks (L.map (fun b => if b = p.2 then [p.1] else b)) := by
      intro b hb
      rcases List.mem_map.mp hb with ⟨b0, hb0, rfl⟩
      by_cases hb0p : b0 = p.2
      · rw [if_pos hb0p]
        exact Or.inr ⟨p.1, rfl, esc_fst_not_alpha p (hsub p (by simp))⟩
      · rw [if_neg hb0p]
        exact hL b0 hb0
    rw [ih (fun q hq => hsub q (by simp [hq])) _ hgood, List.map_map]
    rfl

theorem unescBlock_tok : ∀ p ∈ _escaped, unescBlock _escaped p.2 = [p.1] := by
  decide

theorem unescBlock_single : ∀ tbl, (∀ p ∈ tbl, 2 ≤ p.2.length) → ∀ c : Char,
    unescBlock tbl [c] = [c] := by
  intro tbl
  induction tbl with
  | nil => intro _ c; rfl
  | cons p tbl ih =>
    intro h c
    rw [unescBlock_cons_tbl]
    have hne : ([c] : Str) ≠ p.2 := by
      intro hc
      have := h p (by simp)
      rw [← hc] at this; simp at this
    rw [if_neg hne]
    exact ih (fun q hq => h q (by simp [hq])) c

-- ## No sequence of good blocks spells a sentinel token

theorem good_flatten_ne_sentinel {L : List Str} (hL : GoodBlocks L) :
    ∀ T ∈ sentinelToks, L.flatten ≠ T := by
  intro T hT heq
  cases L with
  | nil => exact sentinel_ne_nil T hT (by simpa using heq.symm)
  | cons b L' =>
    have hbpre : b <+: T := by
      rw [← heq, List.flatten_cons]
      exact List.prefix_append _ _
    rcases hL b (by simp) with hb | ⟨c, rfl, hca⟩
    · exact tok_not_prefix_sentinel_tail T hT T (by
        simp [List.mem_tails]) b hb hbpre
    · exact hca (sentinel_take_alpha T hT c (single_prefix_head hbpre))

-- ## The encoded string as a sequence of good blocks

theorem escWith_blocks (s : Str) :
    escWith _escaped s = (s.map blockOf).flatten := escWith_flatten _ s

theorem goodBlocks_map_blockOf {s : Str} (H : ∀ c ∈ s, c ∉ tokAlpha) :
    GoodBlocks (s.map blockOf) := by
  intro b hb
  rcases List.mem_map.mp hb with ⟨c, hc, rfl⟩
  by_cases hesc : c ∈ _escaped.map Prod.fst
  · rcases List.mem_map.mp hesc with ⟨p, hp, rfl⟩
    left
    rw [blockOf_esc p hp]
    exact tok_snd_mem_toks p hp
  · right
    exact ⟨c, blockOf_plain c hesc, H c hc⟩

theorem flatten_map_singleton (s : Str) :
    (s.map (fun c => ([c] : Str))).flatten = s := by
  induction s with
  | nil => rfl
  | cons c rest ih => simp only [List.map_cons, List.flatten_cons, ih]; rfl

theorem mapped_snd_mem : ∀ p ∈ _mapped, p.2 ∈ sentinelToks := by decide

theorem galaxy_unesc_not_sentinel {s : Str}
    (h : ∀ T ∈ sentinelToks, s ≠ T) :
    galaxy_unesc s = .pyStr (unescWith _escaped s) := by
  have hfind : _mapped.find? (fun p => p.2 == s) = none := by
    rw [List.find?_eq_none]
    intro p hp
    simp only [beq_iff_eq]
    exact fun heq => h p.2 (mapped_snd_mem p hp) heq.symm
  rw [galaxy_unesc, hfind]

theorem unescBlock_blockOf (c : Char) : unescBlock _escaped (blockOf c) = [c] := by
  by_cases hesc : c ∈ _escaped.map Prod.fst
  · rcases List.mem_map.mp hesc with ⟨p, hp, rfl⟩
    rw [blockOf_esc p hp]
    exact unescBlock_tok p hp
  · rw [blockOf_plain c hesc]
    exact unescBlock_single _escaped esc_snd_two_le c

theorem unescBlock_map_blockOf : ∀ s : Str,
    (s.map blockOf).map (unescBlock _escaped) = s.map (fun c => ([c] : Str)) := by
  intro s
  induction s with
  | nil => rfl
  | cons c rest ih =>
    simp only [List.map_cons, ih, unescBlock_blockOf]

theorem unesc_esc_restricted {s : Str} (H : ∀ c ∈ s, c ∉ tokAlpha) :
    galaxy_unesc (escWith _escaped s) = .pyStr s := by
  have hgood := goodBlocks_map_blockOf H
  have hE : escWith _escaped s = (s.map blockOf).flatten := escWith_blocks s
  have hsent : ∀ T ∈ sentinelToks, escWith _escaped s ≠ T := by
    rw [hE]; exact good_flatten_ne_sentinel hgood
  rw [galaxy_unesc_not_sentinel hsent, hE,
    unescWith_blocks _escaped (fun p hp => hp) _ hgood,
    unescBlock_map_blockOf, flatten_map_singleton]

-- ## Claim C1

/-- C1 (counterexample): the string of printable characters __ob__ does
not round-trip: galaxy_esc leaves it unchanged, and galaxy_unesc then
turns it into the open-bracket string. -/
theorem roundtrip_counterexample :
    Except.map galaxy_unesc (galaxy_esc (.pyStr (("__ob__").data))) =
        .ok (.pyStr (("[").data)) ∧
      Except.map galaxy_unesc (galaxy_esc (.pyStr (("__ob__").data))) ≠
        .ok (.pyStr (("__ob__").data)) := by decide

/-- C1 (amended): for every string s none of whose characters occurs in
any escape token, galaxy_unesc (galaxy_esc s) returns s. -/
theorem roundtrip_outside_token_alphabet {s : Str}
    (H : ∀ c ∈ s, c ∉ tokAlpha) :
    Except.map galaxy_unesc (galaxy_esc (.pyStr s)) = .ok (.pyStr s) := by
  have h1 : galaxy_esc (.pyStr s) = .ok (escWith _escaped s) := rfl
  rw [h1]
  show Except.ok (galaxy_unesc (escWith _escaped s)) = _
  rw [unesc_esc_restricted H]

/-- Witness for C1 (amended) at the concrete string [x]. -/
theorem roundtrip_outside_token_alphabet_witness :
    Except.map galaxy_unesc (galaxy_esc (.pyStr (("[x]").data))) =
      .ok (.pyStr (("[x]").data)) :=
  roundtrip_outside_token_alphabet (by decide)

-- ## Claim C2

/-- C2: each sentinel value round-trips to the very same sentinel (the
sentinels are distinct constructors, so equality is identity here), and
encoding the boolean True differs from encoding the string True. -/
theorem sentinel_roundtrip :
    Except.map galaxy_unesc (galaxy_esc .pyNone) = .ok .pyNone ∧
    Except.map galaxy_unesc (galaxy_esc (.pyBool true)) = .ok (.pyBool true) ∧
    Except.map galaxy_unesc (galaxy_esc (.pyBool false)) = .ok (.pyBool false) ∧
    galaxy_esc (.pyBool true) ≠ galaxy_esc (.pyStr (("True").data)) := by decide

-- ## Claim C7

/-- C7: a value that is neither a string nor one of the three sentinels
is rejected by galaxy_esc; in particular the integers 1 and 0 are
rejected, not treated as booleans, since sentinel matching is by
identity. -/
theorem esc_unsupported_values :
    (∀ v : PyVal, (∀ s, v ≠ .pyStr s) → v ≠ .pyNone → v ≠ .pyBool true →
      v ≠ .pyBool false → galaxy_esc v = .error ()) ∧
    galaxy_esc (.pyInt 1) = .error () ∧
    galaxy_esc (.pyInt 0) = .error () := by
  refine ⟨?_, by decide, by decide⟩
  intro v hs hn ht hf
  cases v with
  | pyNone => exact absurd rfl hn
  | pyBool b =>
    cases b with
    | true => exact absurd rfl ht
    | false => exact absurd rfl hf
  | pyStr s => exact absurd rfl (hs s)
  | pyInt n =>
    have hfind : _mapped.find? (fun p => p.1 == .pyInt n) = none := by
      rw [List.find?_eq_none]
      intro p hp
      simp only [beq_iff_eq]
      rcases (by simpa [_mapped] using hp :
        p = (PyVal.pyNone, noneTok) ∨ p = (PyVal.pyBool true, trueTok) ∨
          p = (PyVal.pyBool false, falseTok)) with rfl | rfl | rfl <;> simp
    show (match _mapped.find? (fun p => p.1 == PyVal.pyInt n) with
          | some p => Except.ok p.2
          | none => Except.error ()) = Except.error ()
    rw [hfind]

/-- Witness for C7 at the integer 7. -/
theorem esc_unsupported_values_witness : galaxy_esc (.pyInt 7) = .error () :=
  esc_unsupported_values.1 (.pyInt 7) (fun s h => absurd h (by simp))
    (by simp) (by simp) (by simp)

-- ## Claim C8

theorem escWith_eq_sentinel_tail :
    ∀ (s : Str) {T T' : Str}, T ∈ sentinelToks → T' ∈ T.tails →
      escWith _escaped s = T' → s = T' := by
  intro s
  induction s with
  | nil =>
    intro T T' _ _ h
    rw [escWith_nil] at h
    exact h
  | cons c s' ih =>
    intro T T' hT hT' h
    have hsplit : escWith _escaped (c :: s') =
        blockOf c ++ escWith _escaped s' := by
      have h0 : (c :: s') = [c] ++ s' := rfl
      rw [h0, escWith_append]
      rfl
    rw [hsplit] at h
    by_cases hesc : c ∈ _escaped.map Prod.fst
    · rcases List.mem_map.mp hesc with ⟨p, hp, rfl⟩
      rw [blockOf_esc p hp] at h
      exact absurd ⟨_, h⟩
        (tok_not_prefix_sentinel_tail T hT T' hT' p.2 (tok_snd_mem_toks p hp))
    · rw [blockOf_plain c hesc, List.singleton_append] at h
      cases T' with
      | nil => exact absurd h (by simp)
      | cons d T'' =>
        rw [List.cons_eq_cons] at h
        have hT'' : T'' ∈ T.tails := by
          rw [List.mem_tails] at hT' ⊢
          exact (List.suffix_cons d T'').trans hT'
        rw [h.1, ih hT hT'' h.2]

/-- C8 (amended): for every string other than the three sentinel-token
strings themselves, the encoding is distinct from every sentinel token. -/
theorem esc_no_sentinel_collision {s : Str}
    (h1 : s ≠ noneTok) (h2 : s ≠ trueTok) (h3 : s ≠ falseTok) :
    ∀ T ∈ sentinelToks, galaxy_esc (.pyStr s) ≠ .ok T := by
  intro T hT heq
  have hE : escWith _escaped s = T := by
    have h0 : galaxy_esc (.pyStr s) = .ok (escWith _escaped s) := rfl
    rw [h0] at heq
    injection heq
  have hs : s = T :=
    escWith_eq_sentinel_tail s hT ((List.mem_tails _ _).mpr (List.suffix_refl T)) hE
  rcases (by simpa [sentinelToks] using hT :
    T = noneTok ∨ T = trueTok ∨ T = falseTok) with rfl | rfl | rfl
  · exact h1 hs
  · exact h2 hs
  · exact h3 hs

/-- C8 (counterexample): encoding the literal sentinel-token string for
None yields exactly the sentinel token for None. -/
theorem esc_sentinel_collision_counterexample :
    galaxy_esc (.pyStr (("__q2galaxy__::literal::None").data)) =
      .ok noneTok := by decide

/-- Witness for C8 (amended) at the concrete string abc and the None
token. -/
theorem esc_no_sentinel_collision_witness :
    galaxy_esc (.pyStr (("abc").data)) ≠ .ok noneTok :=
  esc_no_sentinel_collision (by decide) (by decide) (by decide) noneTok
    (by simp [sentinelToks])

-- ## Structural helpers for the ordering engine

theorem Elem.ind {P : Elem → Prop}
    (h : ∀ t a x cs, (∀ c ∈ cs, P c) → P ⟨t, a, x, cs⟩) : ∀ e, P e
  | ⟨t, a, x, cs⟩ => h t a x cs (fun c hc => Elem.ind h c)
termination_by e => sizeOf e
decreasing_by
  have h1 := List.sizeOf_lt_of_mem hc
  simp only [Elem.mk.sizeOf_spec]
  omega

theorem sortedAttrsList_eq_map : ∀ cs : List Elem,
    OrderedTool.sortedAttrsList cs = cs.map OrderedTool._sorted_attrs := by
  intro cs
  induction cs with
  | nil => rfl
  | cons c cs ih =>
    simp only [OrderedTool.sortedAttrsList, ih, List.map_cons]

theorem allNodesList_eq : ∀ cs : List Elem,
    allNodesList cs = (cs.map allNodes).flatten := by
  intro cs
  induction cs with
  | nil => rfl
  | cons c cs ih =>
    simp only [allNodesList, ih, List.map_cons, List.flatten_cons]

theorem stripAttrsList_eq : ∀ cs : List Elem,
    stripAttrsList cs = cs.map stripAttrs := by
  intro cs
  induction cs with
  | nil => rfl
  | cons c cs ih =>
    simp only [stripAttrsList, ih, List.map_cons]

theorem sorted_attrs_mk (t : Str) (a : List (Str × Str)) (x : Option Str)
    (cs : List Elem) :
    OrderedTool._sorted_attrs ⟨t, a, x, cs⟩ =
      ⟨t, OrderedTool.orderedAttrs a, x, cs.map OrderedTool._sorted_attrs⟩ := by
  show (⟨t, OrderedTool.orderedAttrs a, x, OrderedTool.sortedAttrsList cs⟩ : Elem) = _
  rw [sortedAttrsList_eq_map]

theorem allNodes_mk (t : Str) (a : List (Str × Str)) (x : Option Str)
    (cs : List Elem) :
    allNodes ⟨t, a, x, cs⟩ = ⟨t, a, x, cs⟩ :: (cs.map allNodes).flatten := by
  show (⟨t, a, x, cs⟩ : Elem) :: allNodesList cs = _
  rw [allNodesList_eq]

theorem sa_tag (e : Elem) : (OrderedTool._sorted_attrs e).tag = e.tag := by
  cases e; rfl

theorem sa_text (e : Elem) : (OrderedTool._sorted_attrs e).text = e.text := by
  cases e; rfl

theorem sa_attrib (e : Elem) :
    (OrderedTool._sorted_attrs e).attrib = OrderedTool.orderedAttrs e.attrib := by
  cases e; rfl

theorem sa_children (e : Elem) :
    (OrderedTool._sorted_attrs e).children =
      e.children.map OrderedTool._sorted_attrs := by
  cases e with
  | mk t a x cs =>
    show OrderedTool.sortedAttrsList cs = _
    exact sortedAttrsList_eq_map cs

-- ## Properties of orderedAttrs

theorem orderedAttrs_perm (l : List (Str × Str)) :
    (OrderedTool.orderedAttrs l).Perm l := by
  have h := List.filter_append_perm
    (fun it => decide (it.1 ∈ OrderedTool.order_attr)) l
  refine ((List.perm_insertionSort _ _).append (List.perm_insertionSort _ _)).trans ?_
  have heq : (fun it : Str × Str => decide (it.1 ∉ OrderedTool.order_attr)) =
      (fun it : Str × Str => !decide (it.1 ∈ OrderedTool.order_attr)) := by
    funext it
    simp [decide_not]
  show (List.filter _ l ++ List.filter (fun it => decide (it.1 ∉ OrderedTool.order_attr)) l).Perm l
  rw [heq]
  exact h

theorem mem_prio_sort {l : List (Str × Str)} :
    ∀ a ∈ List.insertionSort OrderedTool.attrPrioLe
      (l.filter (fun it => it.1 ∈ OrderedTool.order_attr)),
      a.1 ∈ OrderedTool.order_attr := by
  intro a ha
  have h1 := (List.perm_insertionSort _ _).mem_iff.mp ha
  exact of_decide_eq_true (List.mem_filter.mp h1).2

theorem mem_rest_sort {l : List (Str × Str)} :
    ∀ a ∈ List.insertionSort OrderedTool.attrNameLe
      (l.filter (fun it => it.1 ∉ OrderedTool.order_attr)),
      a.1 ∉ OrderedTool.order_attr := by
  intro a ha
  have h1 := (List.perm_insertionSort _ _).mem_iff.mp ha
  exact of_decide_eq_true (List.mem_filter.mp h1).2

theorem orderedAttrs_spec (l : List (Str × Str)) :
    specAttrOrdered (OrderedTool.orderedAttrs l) := by
  refine ⟨_, _, rfl, mem_prio_sort, mem_rest_sort, ?_, ?_⟩
  · exact List.sorted_insertionSort _ _
  · exact List.sorted_insertionSort _ _

theorem orderedAttrs_idem (l : List (Str × Str)) :
    OrderedTool.orderedAttrs (OrderedTool.orderedAttrs l) =
      OrderedTool.orderedAttrs l := by
  have heq : OrderedTool.orderedAttrs l =
      List.insertionSort OrderedTool.attrPrioLe
        (l.filter (fun it => it.1 ∈ OrderedTool.order_attr)) ++
      List.insertionSort OrderedTool.attrNameLe
        (l.filter (fun it => it.1 ∉ OrderedTool.order_attr)) := rfl
  have hfP : (OrderedTool.orderedAttrs l).filter
      (fun it => it.1 ∈ OrderedTool.order_attr) =
      List.insertionSort OrderedTool.attrPrioLe
        (l.filter (fun it => it.1 ∈ OrderedTool.order_attr)) := by
    rw [heq, List.filter_append]
    have e1 : (List.insertionSort OrderedTool.attrPrioLe
        (l.filter (fun it => it.1 ∈ OrderedTool.order_attr))).filter
          (fun it => it.1 ∈ OrderedTool.order_attr) =
        List.insertionSort OrderedTool.attrPrioLe
          (l.filter (fun it => it.1 ∈ OrderedTool.order_attr)) :=
      List.filter_eq_self.mpr (fun a ha => decide_eq_true (mem_prio_sort a ha))
    have e2 : (List.insertionSort OrderedTool.attrNameLe
        (l.filter (fun it => it.1 ∉ OrderedTool.order_attr))).filter
          (fun it => it.1 ∈ OrderedTool.order_attr) = [] :=
      List.filter_eq_nil_iff.mpr (fun a ha h =>
        mem_rest_sort a ha (of_decide_eq_true h))
    rw [e1, e2, List.append_nil]
  have hfR : (OrderedTool.orderedAttrs l).filter
      (fun it => it.1 ∉ OrderedTool.order_attr) =
      List.insertionSort OrderedTool.attrNameLe
        (l.filter (fun it => it.1 ∉ OrderedTool.order_attr)) := by
    rw [heq, List.filter_append]
    have e1 : (List.insertionSort OrderedTool.attrPrioLe
        (l.filter (fun it => it.1 ∈ OrderedTool.order_attr))).filter
          (fun it => it.1 ∉ OrderedTool.order_attr) = [] :=
      List.filter_eq_nil_iff.mpr (fun a ha h =>
        of_decide_eq_true h (mem_prio_sort a ha))
    have e2 : (List.insertionSort OrderedTool.attrNameLe
        (l.filter (fun it => it.1 ∉ OrderedTool.order_attr))).filter
          (fun it => it.1 ∉ OrderedTool.order_attr) =
        List.insertionSort OrderedTool.attrNameLe
          (l.filter (fun it => it.1 ∉ OrderedTool.order_attr)) :=
      List.filter_eq_self.mpr (fun a ha => decide_eq_true (mem_rest_sort a ha))
    rw [e1, e2, List.nil_append]
  have hout : OrderedTool.orderedAttrs (OrderedTool.orderedAttrs l) =
      List.insertionSort OrderedTool.attrPrioLe
        ((OrderedTool.orderedAttrs l).filter
          (fun it => it.1 ∈ OrderedTool.order_attr)) ++
      List.insertionSort OrderedTool.attrNameLe
        ((OrderedTool.orderedAttrs l).filter
          (fun it => it.1 ∉ OrderedTool.order_attr)) := rfl
  rw [hout, hfP, hfR,
    List.Sorted.insertionSort_eq (List.sorted_insertionSort _ _),
    List.Sorted.insertionSort_eq (List.sorted_insertionSort _ _), heq]

-- ## Recursive properties of _sorted_attrs

theorem sa_idem : ∀ e : Elem,
    OrderedTool._sorted_attrs (OrderedTool._sorted_attrs e) =
      OrderedTool._sorted_attrs e := by
  intro e
  induction e using Elem.ind with
  | h t a x cs ih =>
    rw [sorted_attrs_mk, sorted_attrs_mk, orderedAttrs_idem, List.map_map]
    have hfix : cs.map (OrderedTool._sorted_attrs ∘ OrderedTool._sorted_attrs) =
        cs.map OrderedTool._sorted_attrs :=
      List.map_congr_left (fun c hc => ih c hc)
    rw [hfix]

theorem strip_sa : ∀ e : Elem,
    stripAttrs (OrderedTool._sorted_attrs e) = stripAttrs e := by
  intro e
  induction e using Elem.ind with
  | h t a x cs ih =>
    rw [sorted_attrs_mk]
    show (⟨t, [], x, stripAttrsList (cs.map OrderedTool._sorted_attrs)⟩ : Elem) =
      ⟨t, [], x, stripAttrsList cs⟩
    rw [stripAttrsList_eq, stripAttrsList_eq, List.map_map]
    have hfix : cs.map (stripAttrs ∘ OrderedTool._sorted_attrs) =
        cs.map stripAttrs :=
      List.map_congr_left (fun c hc => ih c hc)
    rw [hfix]

-- ## The success condition and normal form of OrderedTool.sorted

theorem cond_sa (e : Elem) :
    (∀ c ∈ (OrderedTool._sorted_attrs e).children, c.tag ∈ OrderedTool.order) ↔
      (∀ c ∈ e.children, c.tag ∈ OrderedTool.order) := by
  rw [sa_children]
  constructor
  · intro h c hc
    have h2 := h (OrderedTool._sorted_attrs c) (List.mem_map_of_mem _ hc)
    rwa [sa_tag] at h2
  · intro h c' hc'
    rcases List.mem_map.mp hc' with ⟨c, hc, rfl⟩
    rw [sa_tag]
    exact h c hc

theorem sorted_eq_some (e : Elem)
    (hcond : ∀ c ∈ e.children, c.tag ∈ OrderedTool.order) :
    OrderedTool.sorted e = some ⟨e.tag, OrderedTool.orderedAttrs e.attrib, e.text,
      List.insertionSort OrderedTool.tagLe
        (e.children.map OrderedTool._sorted_attrs)⟩ := by
  simp only [OrderedTool.sorted]
  rw [if_pos ((cond_sa e).mpr hcond), sa_tag, sa_text, sa_attrib, sa_children]

theorem sorted_eq_none_iff (e : Elem) :
    OrderedTool.sorted e = none ↔
      ∃ c ∈ e.children, c.tag ∉ OrderedTool.order := by
  by_cases hcond : ∀ c ∈ e.children, c.tag ∈ OrderedTool.order
  · rw [sorted_eq_some e hcond]
    simp only [reduceCtorEq, false_iff]
    push_neg
    exact hcond
  · simp only [OrderedTool.sorted, if_neg (fun hc => hcond ((cond_sa e).mp hc))]
    simp only [true_iff]
    push_neg at hcond
    exact hcond

theorem sorted_inverts {e e1 : Elem} (h : OrderedTool.sorted e = some e1) :
    (∀ c ∈ e.children, c.tag ∈ OrderedTool.order) ∧
      e1 = ⟨e.tag, OrderedTool.orderedAttrs e.attrib, e.text,
        List.insertionSort OrderedTool.tagLe
          (e.children.map OrderedTool._sorted_attrs)⟩ := by
  have hcond : ∀ c ∈ e.children, c.tag ∈ OrderedTool.order := by
    by_contra hnc
    push_neg at hnc
    have hn := (sorted_eq_none_iff e).mpr hnc
    rw [hn] at h
    exact Option.noConfusion h
  have hval := sorted_eq_some e hcond
  rw [h] at hval
  injection hval with hval
  exact ⟨hcond, hval⟩

theorem mem_tag_sort {e : Elem} :
    ∀ c1 ∈ List.insertionSort OrderedTool.tagLe
      (e.children.map OrderedTool._sorted_attrs),
      ∃ c ∈ e.children, c1 = OrderedTool._sorted_attrs c := by
  intro c1 hc1
  have h2 := (List.perm_insertionSort _ _).mem_iff.mp hc1
  rcases List.mem_map.mp h2 with ⟨c, hc, rfl⟩
  exact ⟨c, hc, rfl⟩

-- ## Claim C3

/-- C3: canonicalization is idempotent: whenever OrderedTool.sorted
succeeds on a tree and returns t1, running it again on t1 succeeds and
returns t1 unchanged. -/
theorem canonicalize_idempotent {e e1 : Elem}
    (h : OrderedTool.sorted e = some e1) :
    OrderedTool.sorted e1 = some e1 := by
  obtain ⟨hcond, rfl⟩ := sorted_inverts h
  have hcond1 : ∀ c1 ∈ List.insertionSort OrderedTool.tagLe
      (e.children.map OrderedTool._sorted_attrs),
      c1.tag ∈ OrderedTool.order := by
    intro c1 hc1
    rcases mem_tag_sort c1 hc1 with ⟨c, hc, rfl⟩
    rw [sa_tag]
    exact hcond c hc
  have h1 := sorted_eq_some
    (⟨e.tag, OrderedTool.orderedAttrs e.attrib, e.text,
      List.insertionSort OrderedTool.tagLe
        (e.children.map OrderedTool._sorted_attrs)⟩ : Elem) hcond1
  rw [h1]
  have h3 : ∀ c1 ∈ List.insertionSort OrderedTool.tagLe
      (e.children.map OrderedTool._sorted_attrs),
      OrderedTool._sorted_attrs c1 = c1 := by
    intro c1 hc1
    rcases mem_tag_sort c1 hc1 with ⟨c, _, rfl⟩
    exact sa_idem c
  have hfix : (List.insertionSort OrderedTool.tagLe
      (e.children.map OrderedTool._sorted_attrs)).map OrderedTool._sorted_attrs =
      List.insertionSort OrderedTool.tagLe
        (e.children.map OrderedTool._sorted_attrs) :=
    calc (List.insertionSort OrderedTool.tagLe
          (e.children.map OrderedTool._sorted_attrs)).map OrderedTool._sorted_attrs
        = (List.insertionSort OrderedTool.tagLe
          (e.children.map OrderedTool._sorted_attrs)).map (fun c => c) :=
          List.map_congr_left h3
      _ = _ := List.map_id' _
  rw [orderedAttrs_idem, hfix,
    List.Sorted.insertionSort_eq (List.sorted_insertionSort _ _)]

/-- Witness for C3 at a concrete one-child tree. -/
theorem canonicalize_idempotent_witness :
    OrderedTool.sorted (⟨("tool").data, [], none,
        [(⟨("description").data, [], none, []⟩ : Elem)]⟩ : Elem) =
      some ⟨("tool").data, [], none,
        [(⟨("description").data, [], none, []⟩ : Elem)]⟩ :=
  canonicalize_idempotent (show OrderedTool.sorted
    (⟨("tool").data, [], none,
      [(⟨("description").data, [], none, []⟩ : Elem)]⟩ : Elem) =
    some ⟨("tool").data, [], none,
      [(⟨("description").data, [], none, []⟩ : Elem)]⟩ from rfl)

-- ## Claim C4

theorem spec_ordered_allNodes_sa : ∀ e : Elem,
    ∀ n ∈ allNodes (OrderedTool._sorted_attrs e), specAttrOrdered n.attrib := by
  intro e
  induction e using Elem.ind with
  | h t a x cs ih =>
    intro n hn
    rw [sorted_attrs_mk, allNodes_mk] at hn
    rcases List.mem_cons.mp hn with rfl | hn2
    · exact orderedAttrs_spec a
    · rcases List.mem_flatten.mp hn2 with ⟨L, hL, hnL⟩
      rcases List.mem_map.mp hL with ⟨c1, hc1, rfl⟩
      rcases List.mem_map.mp hc1 with ⟨c, hc, rfl⟩
      exact ih c hc n hnL

/-- C4: in a successfully canonicalized tree, every node at every level
carries its attributes as the order_attr priority group (in priority
order) followed by the alphabetically ordered remainder; and the node
with attributes help, name, zzz, argument comes out in order name,
argument, help, zzz. -/
theorem attribute_order {e e1 : Elem} (h : OrderedTool.sorted e = some e1) :
    (∀ n ∈ allNodes e1, specAttrOrdered n.attrib) ∧
      OrderedTool.orderedAttrs
          [(("help").data, ("h").data), (("name").data, ("n").data),
           (("zzz").data, ("z").data), (("argument").data, ("a").data)] =
        [(("name").data, ("n").data), (("argument").data, ("a").data),
         (("help").data, ("h").data), (("zzz").data, ("z").data)] := by
  refine ⟨?_, by rfl⟩
  obtain ⟨hcond, rfl⟩ := sorted_inverts h
  intro n hn
  rw [allNodes_mk] at hn
  rcases List.mem_cons.mp hn with rfl | hn2
  · exact orderedAttrs_spec e.attrib
  · rcases List.mem_flatten.mp hn2 with ⟨L, hL, hnL⟩
    rcases List.mem_map.mp hL with ⟨c1, hc1, rfl⟩
    rcases mem_tag_sort c1 hc1 with ⟨c, _, rfl⟩
    exact spec_ordered_allNodes_sa c n hnL

/-- Witness for C4: the concrete attribute reordering, through the
theorem applied to a childless root. -/
theorem attribute_order_witness :
    OrderedTool.orderedAttrs
        [(("help").data, ("h").data), (("name").data, ("n").data),
         (("zzz").data, ("z").data), (("argument").data, ("a").data)] =
      [(("name").data, ("n").data), (("argument").data, ("a").data),
       (("help").data, ("h").data), (("zzz").data, ("z").data)] :=
  (attribute_order (show OrderedTool.sorted
    (⟨("tool").data, [], none, []⟩ : Elem) =
    some ⟨("tool").data, [], none, []⟩ from rfl)).2

-- ## Claim C5

/-- C5: the root children of a canonicalized tree are sorted by their
position in the tag priority list, as a permutation of the recursively
attribute-sorted input children; root children with tags outputs,
description, code come out as description, code, outputs; and below the
root only attributes are reordered: stripping attribute lists,
_sorted_attrs is the identity, so nested children keep their order. -/
theorem root_child_order {e e1 : Elem} (h : OrderedTool.sorted e = some e1) :
    ((OrderedTool.sorted (⟨("tool").data, [], none,
          [(⟨("outputs").data, [], none, []⟩ : Elem),
           ⟨("description").data, [], none, []⟩,
           ⟨("code").data, [], none, []⟩]⟩ : Elem)).map
        (fun r => r.children.map Elem.tag) =
      some [("description").data, ("code").data, ("outputs").data]) ∧
    e1.children.Pairwise OrderedTool.tagLe ∧
    e1.children.Perm (e.children.map OrderedTool._sorted_attrs) ∧
    (∀ c : Elem, stripAttrs (OrderedTool._sorted_attrs c) = stripAttrs c) := by
  obtain ⟨hcond, rfl⟩ := sorted_inverts h
  refine ⟨by rfl, ?_, ?_, strip_sa⟩
  · exact List.sorted_insertionSort _ _
  · exact List.perm_insertionSort _ _

/-- Witness for C5: the concrete root reordering, through the theorem
applied to a childless root. -/
theorem root_child_order_witness :
    (OrderedTool.sorted (⟨("tool").data, [], none,
        [(⟨("outputs").data, [], none, []⟩ : Elem),
         ⟨("description").data, [], none, []⟩,
         ⟨("code").data, [], none, []⟩]⟩ : Elem)).map
      (fun r => r.children.map Elem.tag) =
      some [("description").data, ("code").data, ("outputs").data] :=
  (root_child_order (show OrderedTool.sorted
    (⟨("tool").data, [], none, []⟩ : Elem) =
    some ⟨("tool").data, [], none, []⟩ from rfl)).1

-- ## Claim C6

/-- C6: OrderedTool.sorted fails exactly when some direct child of the
root has a tag outside the tag priority list; in particular a root
child with tag foobar is fatal, while attribute names play no part in
the success condition. -/
theorem unknown_root_tag_fails (e : Elem) :
    (OrderedTool.sorted e = none ↔
      ∃ c ∈ e.children, c.tag ∉ OrderedTool.order) ∧
    OrderedTool.sorted (⟨("tool").data, [], none,
      [(⟨("foobar").data, [], none, []⟩ : Elem)]⟩ : Elem) = none :=
  ⟨sorted_eq_none_iff e, by rfl⟩

-- ## Claim C9

theorem mem_setPairs_self : ∀ (l : List (Str × Str)) (k v : Str),
    (k, v) ∈ setPairs l k v := by
  intro l k v
  induction l with
  | nil => simp [setPairs]
  | cons p rest ih =>
    rcases p with ⟨k0, v0⟩
    by_cases hk : k0 = k
    · simp [setPairs, hk]
    · simp only [setPairs, if_neg hk]
      exact List.mem_cons_of_mem _ ih

theorem mem_setPairs_of_ne (l : List (Str × Str)) (k v k0 v0 : Str)
    (hmem : (k0, v0) ∈ l) (hne : k0 ≠ k) : (k0, v0) ∈ setPairs l k v := by
  induction l with
  | nil => simp at hmem
  | cons p rest ih =>
    rcases p with ⟨k1, v1⟩
    by_cases hk : k1 = k
    · simp only [setPairs, if_pos hk]
      rcases List.mem_cons.mp hmem with heq | hmem2
      · exfalso
        injection heq with h1 h2
        exact hne (h1.trans hk)
      · exact List.mem_cons_of_mem _ hmem2
    · simp only [setPairs, if_neg hk]
      rcases List.mem_cons.mp hmem with heq | hmem2
      · exact heq ▸ List.mem_cons_self _ _
      · exact List.mem_cons_of_mem _ (ih hmem2)

/-- C9: a successful write_tool canonicalizes the tree, sets exactly the
two fixed attributes profile=20.09 and license=BSD-3-Clause on the root,
attaches exactly the copyright and provenance comment blocks before the
root, and the serialized document is the XML declaration, the two
comment blocks, then the root element. -/
theorem write_tool_layout {year : Nat} {q2v qiime2v : Str} {tool : Elem}
    {doc : ToolDoc} (h : write_tool year q2v qiime2v tool = some doc) :
    (∃ t, OrderedTool.sorted tool = some t ∧
        doc.root = (t.set (("profile").data) (("20.09").data)).set
          (("license").data) (("BSD-3-Clause").data)) ∧
    ((("profile").data, ("20.09").data)) ∈ doc.root.attrib ∧
    ((("license").data, ("BSD-3-Clause").data)) ∈ doc.root.attrib ∧
    doc.comments = [COPYRIGHT year, provenance q2v qiime2v] ∧
    serializeDoc doc = xmlDeclaration ++ commentStr (COPYRIGHT year) ++
      commentStr (provenance q2v qiime2v) ++ serializeElem doc.root := by
  cases hsort : OrderedTool.sorted tool with
  | none =>
    rw [write_tool, hsort] at h
    exact Option.noConfusion h
  | some t =>
    rw [write_tool, hsort] at h
    simp only [Option.map_some'] at h
    injection h with h
    subst h
    refine ⟨⟨t, rfl, rfl⟩, ?_, mem_setPairs_self _ _ _, rfl, ?_⟩
    · exact mem_setPairs_of_ne _ _ _ _ _ (mem_setPairs_self _ _ _) (by decide)
    · show xmlDeclaration ++
        ([COPYRIGHT year, provenance q2v qiime2v].map commentStr).flatten ++
        serializeElem _ = _
      simp [List.append_assoc]

/-- Witness for C9 at a concrete childless tool. -/
theorem write_tool_layout_witness :
    ((("profile").data, ("20.09").data)) ∈
      (ToolDoc.mk [COPYRIGHT 2024, provenance (("1.0").data) (("2.0").data)]
        (⟨("tool").data,
          [((("profile").data), (("20.09").data)),
           ((("license").data), (("BSD-3-Clause").data))], none, []⟩ : Elem)).root.attrib :=
  (write_tool_layout (show write_tool 2024 (("1.0").data) (("2.0").data)
      (⟨("tool").data, [], none, []⟩ : Elem) =
    some (ToolDoc.mk [COPYRIGHT 2024, provenance (("1.0").data) (("2.0").data)]
      (⟨("tool").data,
        [((("profile").data), (("20.09").data)),
         ((("license").data), (("BSD-3-Clause").data))], none, []⟩ : Elem))
    from rfl)).2.1

-- ## Claim C10

/-- C10: canonicalization only reorders: the root keeps its tag, text
and attribute multiset, its children are a permutation of the
recursively canonicalized input children; and at every node,
_sorted_attrs keeps the tag, the text, the attribute multiset, and maps
the children in order. -/
theorem reorder_only {e e1 : Elem} (h : OrderedTool.sorted e = some e1) :
    (e1.tag = e.tag ∧ e1.text = e.text ∧ e1.attrib.Perm e.attrib ∧
      e1.children.Perm (e.children.map OrderedTool._sorted_attrs)) ∧
    (∀ a : Elem, (OrderedTool._sorted_attrs a).tag = a.tag ∧
      (OrderedTool._sorted_attrs a).text = a.text ∧
      (OrderedTool._sorted_attrs a).attrib.Perm a.attrib ∧
      (OrderedTool._sorted_attrs a).children =
        a.children.map OrderedTool._sorted_attrs) := by
  obtain ⟨hcond, rfl⟩ := sorted_inverts h
  refine ⟨⟨rfl, rfl, orderedAttrs_perm _, List.perm_insertionSort _ _⟩, ?_⟩
  intro a
  refine ⟨sa_tag a, sa_text a, ?_, sa_children a⟩
  rw [sa_attrib]
  exact orderedAttrs_perm _

/-- Witness for C10 at a concrete root with two attributes. -/
theorem reorder_only_witness :
    ((⟨("tool").data, [(("name").data, ("n").data), (("id").data, ("i").data)],
        none, []⟩ : Elem) : Elem).attrib.Perm
      ((⟨("tool").data, [(("id").data, ("i").data), (("name").data, ("n").data)],
        none, []⟩ : Elem) : Elem).attrib :=
  (reorder_only (show OrderedTool.sorted
    (⟨("tool").data, [(("id").data, ("i").data), (("name").data, ("n").data)],
      none, []⟩ : Elem) =
    some ⟨("tool").data, [(("name").data, ("n").data), (("id").data, ("i").data)],
      none, []⟩ from rfl)).1.2.2.1

end Q2Galaxy
